import Mathlib

/-!
Verification of the matcap asset-extraction script `scripts/extract_matcaps.py`.

The script scans C++ source text for declarations of the shape
`const std::array<unsigned char, N> NAME = ...` whose brace-delimited body
holds hex byte literals, decodes every two-digit `0x` token into a byte,
collects the arrays into a name-to-bytes mapping with Python-dict update
semantics, and for each requested name suffix picks a matching array and
writes its bytes to an output file.

The embedding models, over `List Char`:
* the hex-token scan of `re.findall` on the two-hex-digit pattern as
  `findHexBytes` (leftmost, non-overlapping matches, left to right);
* the declaration regex as `matchDeclAt` (one match attempt at one
  position) and `scanDecls` (the scan of `re.finditer`: try every
  position, resume after the end of each match);
* `extract_arrays` as the insertion-ordered association list built with
  Python-dict update semantics (`dictInsert`: overwriting keeps the key's
  original position);
* the per-channel selection logic of `main` as `selectOutcome` and
  `processChannels`, where `SelectResult.indexError` marks the uncaught
  IndexError raised by indexing position zero of an empty Python list,
  and `Except.error` marks an exception aborting the loop;
* the binary file write as an update of a path-indexed map (`writeFile`).

Character classes carry the ASCII meaning of the Python classes for
whitespace, word characters, decimal digits and hex digits, written over
`Char.toNat` code points (the script's inputs are ASCII C++ sources).
-/

/-- ASCII whitespace, the characters matched by the regex whitespace class:
space, tab, newline, carriage return, vertical tab, form feed. -/
def isSpace (c : Char) : Bool :=
  c.toNat = 32 || c.toNat = 9 || c.toNat = 10 || c.toNat = 13 || c.toNat = 11 || c.toNat = 12

/-- ASCII decimal digit, the regex digit class. -/
def isDigitChar (c : Char) : Bool :=
  48 ≤ c.toNat && c.toNat ≤ 57

/-- ASCII word character, the regex word class: digits, letters, underscore. -/
def isWordChar (c : Char) : Bool :=
  (48 ≤ c.toNat && c.toNat ≤ 57) || (65 ≤ c.toNat && c.toNat ≤ 90) ||
    (97 ≤ c.toNat && c.toNat ≤ 122) || c.toNat = 95

/-- Hexadecimal digit, the character class 0-9, a-f, A-F of the hex token
pattern in `extract_arrays`. -/
def isHexDigit (c : Char) : Bool :=
  (48 ≤ c.toNat && c.toNat ≤ 57) || (97 ≤ c.toNat && c.toNat ≤ 102) ||
    (65 ≤ c.toNat && c.toNat ≤ 70)

/-- Value of one hexadecimal digit, as used by Python int with base 16. -/
def hexVal (c : Char) : Nat :=
  if 48 ≤ c.toNat && c.toNat ≤ 57 then c.toNat - 48
  else if 97 ≤ c.toNat && c.toNat ≤ 102 then c.toNat - 87
  else if 65 ≤ c.toNat && c.toNat ≤ 70 then c.toNat - 55
  else 0

/-- The hex-token scan in `extract_arrays`: Python `re.findall` applied to
the pattern zero, x, two hex digits.  The scan is leftmost and
non-overlapping: at every position a match is attempted; on success the
two-digit value is emitted and scanning resumes after the match, otherwise
scanning moves on by one position.  (A failed attempt at a position whose
first two characters are zero then x resumes at the x, which can never
start a match since a match starts with zero, so the scan steps straight
to the first payload character.)  A matched token with digits h1 h2
decodes with Python int at base 16 to 16 * hexVal h1 + hexVal h2. -/
def findHexBytes : List Char → List Nat
  | '0' :: 'x' :: h1 :: h2 :: rest2 =>
    if isHexDigit h1 = true ∧ isHexDigit h2 = true then
      (16 * hexVal h1 + hexVal h2) :: findHexBytes rest2
    else
      findHexBytes ('x' :: h1 :: h2 :: rest2)
  | _ :: rest => findHexBytes rest
  | [] => []
termination_by l => l.length
decreasing_by all_goals (simp only [List.length_cons]; omega)

/-- A token of a declaration body, used to state the hex-decoding claim:
either a well-formed hex token (prefix then two hex digits) or a malformed
token of the same width whose two payload characters are not both hex
digits.  This is the spec-side view of a body; `renderBody` turns it into
the literal text the scanner reads. -/
inductive Tok where
  | good : Char → Char → Tok
  | malformed : Char → Char → Tok
deriving DecidableEq

/-- Literal text of one token: the characters zero, x, then the payload. -/
def renderTok : Tok → List Char
  | Tok.good h1 h2 => ['0', 'x', h1, h2]
  | Tok.malformed c1 c2 => ['0', 'x', c1, c2]

/-- Literal text of a comma-separated token list, as it appears inside a
declaration body. -/
def renderBody : List Tok → List Char
  | [] => []
  | [t] => renderTok t
  | t :: ts => renderTok t ++ ',' :: ' ' :: renderBody ts

/-- Spec-side decoding: the integer values of exactly the well-formed
tokens, in order; malformed tokens contribute nothing. -/
def goodVals : List Tok → List Nat
  | [] => []
  | Tok.good h1 h2 :: ts => (16 * hexVal h1 + hexVal h2) :: goodVals ts
  | Tok.malformed _ _ :: ts => goodVals ts

/-- Well-formedness of one token: a good token carries two hex digits, a
malformed token does not. -/
def wfTok : Tok → Bool
  | Tok.good h1 h2 => isHexDigit h1 && isHexDigit h2
  | Tok.malformed c1 c2 => !(isHexDigit c1 && isHexDigit c2)

/-- Well-formedness of a token list. -/
def wfToks (ts : List Tok) : Bool := ts.all wfTok

/-- Python str.endswith as used on declaration names: true when the name
ends with the requested suffix; the empty suffix matches every name. -/
def endsWith (name suffix : List Char) : Bool := suffix.isSuffixOf name

/-- Result of the channel-selection logic in `main` for one requested
suffix: either the asset is skipped with a warning (no candidate at all),
or a declaration name is selected, or position zero of an empty Python
list is taken and an uncaught IndexError is raised. -/
inductive SelectResult where
  | skipped : SelectResult
  | selected : List Char → SelectResult
  | indexError : SelectResult
deriving DecidableEq

/-- The selection logic of `main` for one (suffix, output) pair, over the
mapping in insertion order: first collect the names ending with the
suffix; if none, fall back to the full key list; if that is still empty,
skip with a warning; otherwise, a non-empty (truthy) suffix takes position
zero of the names of the candidate list that end with the suffix (when no
candidate does, that list is empty and the indexing raises IndexError),
and an empty suffix takes position zero of the candidate list. -/
def selectOutcome (arrays : List (List Char × List Nat)) (suffix : List Char) : SelectResult :=
  let keys := arrays.map Prod.fst
  let m0 := keys.filter (fun n => endsWith n suffix)
  let matching := if m0.isEmpty then keys else m0
  if matching.isEmpty then SelectResult.skipped
  else if suffix.isEmpty then
    match matching.head? with
    | some n => SelectResult.selected n
    | none => SelectResult.indexError
  else
    match (matching.filter (fun n => endsWith n suffix)).head? with
    | some n => SelectResult.selected n
    | none => SelectResult.indexError

/-- Python dict lookup on the insertion-ordered association list. -/
def dictGet (d : List (List Char × List Nat)) (k : List Char) : Option (List Nat) :=
  match d.find? (fun p => p.1 == k) with
  | some p => some p.2
  | none => none

/-- Python dict store: overwriting an existing key keeps its original
position in iteration order, a new key is appended at the end. -/
def dictInsert (k : List Char) (v : List Nat) (d : List (List Char × List Nat)) :
    List (List Char × List Nat) :=
  if d.any (fun p => p.1 == k) then d.map (fun p => if p.1 == k then (k, v) else p)
  else d ++ [(k, v)]

/-- The buffer selected for one suffix: the name chosen by `selectOutcome`
looked up in the mapping (the Python subscript on the arrays dict). -/
def selectData (arrays : List (List Char × List Nat)) (suffix : List Char) : Option (List Nat) :=
  match selectOutcome arrays suffix with
  | SelectResult.selected n => dictGet arrays n
  | _ => none

/-- The per-file channel loop of `main`: for each (suffix, output name)
pair in order, run selection; a skipped selection prints a warning and
continues with the next pair; a selected name is looked up and its bytes
are recorded for the named output file; an IndexError (or the impossible
failed dict lookup) aborts the whole loop, as an uncaught Python exception
would.  The result lists the (output name, bytes) writes in order. -/
def processChannels (arrays : List (List Char × List Nat)) :
    List (List Char × List Char) → Except Unit (List (List Char × List Nat))
  | [] => Except.ok []
  | (suffix, outName) :: rest =>
    match selectOutcome arrays suffix with
    | SelectResult.skipped => processChannels arrays rest
    | SelectResult.selected n =>
      match dictGet arrays n with
      | some data =>
        match processChannels arrays rest with
        | Except.ok outs => Except.ok ((outName, data) :: outs)
        | Except.error e => Except.error e
      | none => Except.error ()
    | SelectResult.indexError => Except.error ()

/-- Literal text fragment of the declaration pattern: the keyword const. -/
def constLit : List Char := ['c', 'o', 'n', 's', 't']

/-- Literal text fragment up to the element type's first word. -/
def arrayLit : List Char := "std::array<unsigned".toList

/-- Literal text fragment: second word of the element type and the comma. -/
def charLit : List Char := "char,".toList

/-- Match a literal character sequence at the front of the input, giving
the remaining input. -/
def lit : List Char → List Char → Option (List Char)
  | [], s => some s
  | _ :: _, [] => none
  | t :: ts, c :: cs => if c = t then lit ts cs else none

/-- Zero or more whitespace characters (greedy). -/
def dropSpaces (s : List Char) : List Char := s.dropWhile isSpace

/-- One or more whitespace characters (greedy). -/
def dropSpaces1 : List Char → Option (List Char)
  | [] => none
  | c :: cs => if isSpace c then some (cs.dropWhile isSpace) else none

/-- One or more decimal digits (greedy); the digits (the declared array
size) are not captured by the script. -/
def takeDigits1 (s : List Char) : Option (List Char) :=
  if (s.takeWhile isDigitChar).isEmpty then none else some (s.dropWhile isDigitChar)

/-- One or more word characters (greedy): the captured declaration name. -/
def takeWord1 (s : List Char) : Option (List Char × List Char) :=
  if (s.takeWhile isWordChar).isEmpty then none
  else some (s.takeWhile isWordChar, s.dropWhile isWordChar)

/-- Characters other than a closing brace: the body character class. -/
def notBrace (c : Char) : Bool := c != '}'

/-- One or more non-closing-brace characters (greedy): the captured body. -/
def takeBody1 (s : List Char) : Option (List Char × List Char) :=
  if (s.takeWhile notBrace).isEmpty then none
  else some (s.takeWhile notBrace, s.dropWhile notBrace)

/-- One attempt to match the declaration regex of `extract_arrays` at the
current position: the literal const, whitespace, the literal array-of
unsigned text, whitespace, the char keyword and comma, optional
whitespace, the decimal size, the closing angle bracket, whitespace, the
captured name, optional whitespace, the equals sign, optional whitespace,
the opening brace, the captured non-brace body, the closing brace.
Returns the captured name, the captured body, and the input remaining
after the match.  Every greedy piece here is followed by a literal outside
its own character class, so the greedy left-to-right reading used below is
exactly the regex's backtracking behaviour. -/
def matchDeclAt (s : List Char) : Option (List Char × List Char × List Char) :=
  (lit constLit s).bind fun s1 =>
  (dropSpaces1 s1).bind fun s2 =>
  (lit arrayLit s2).bind fun s3 =>
  (dropSpaces1 s3).bind fun s4 =>
  (lit charLit s4).bind fun s5 =>
  (takeDigits1 (dropSpaces s5)).bind fun s6 =>
  (lit ['>'] s6).bind fun s7 =>
  (dropSpaces1 s7).bind fun s8 =>
  (takeWord1 s8).bind fun nw =>
  (lit ['='] (dropSpaces nw.2)).bind fun s9 =>
  (lit ['{'] (dropSpaces s9)).bind fun s10 =>
  (takeBody1 s10).bind fun bw =>
  (lit ['}'] bw.2).bind fun s11 =>
  some (nw.1, bw.1, s11)

/-- The scan of `re.finditer` in `extract_arrays`, with an explicit bound
on the number of scan steps: at each position try `matchDeclAt`; on
success emit the captures and resume after the match (matches never
overlap), otherwise advance by one character.  Each step consumes at least
one character, so the length of the document bounds the number of steps;
`scanDeclsAux_adequate` below proves the bound exact, so `scanDecls` is
the unbounded scan. -/
def scanDeclsAux : Nat → List Char → List (List Char × List Char)
  | 0, _ => []
  | _ + 1, [] => []
  | fuel + 1, c :: rest =>
    match matchDeclAt (c :: rest) with
    | some r => (r.1, r.2.1) :: scanDeclsAux fuel r.2.2
    | none => scanDeclsAux fuel rest

/-- All declaration matches of a document, in document order. -/
def scanDecls (s : List Char) : List (List Char × List Char) := scanDeclsAux s.length s

/-- The extractor `extract_arrays`: scan the document for declaration
matches and store each captured body's decoded bytes under the captured
name, in match order, with Python-dict update semantics. -/
def extract_arrays (content : List Char) : List (List Char × List Nat) :=
  (scanDecls content).foldl (fun d m => dictInsert m.1 (findHexBytes m.2) d) []

/-- Spec-side description of duplicate handling: the body text of the
last match in document order that carries the given name, if any. -/
def lastOccurrenceBody (name : List Char) : List (List Char × List Char) → Option (List Char)
  | [] => none
  | (n, b) :: rest =>
    match lastOccurrenceBody name rest with
    | some b2 => some b2
    | none => if n = name then some b else none

/-- Text of one declaration of the matched shape, with a parametric size,
name and body and single spaces between the fixed fragments, shaped so
that each parser step of `matchDeclAt` lines up with one fragment. -/
def renderDecl (digits name body : List Char) : List Char :=
  constLit ++ ' ' :: (arrayLit ++ ' ' :: (charLit ++ ' ' ::
    (digits ++ '>' :: ' ' :: (name ++ ' ' :: '=' :: ' ' :: '{' :: (body ++ ['}'])))))

/-- A file system for the write step: optional contents for each path. -/
def FileSys : Type := List Char → Option (List Nat)

/-- The mode wb file write of `main`: the destination path now holds
exactly the given bytes, replacing any previous content; all other paths
are untouched. -/
def writeFile (fs : FileSys) (path : List Char) (data : List Nat) : FileSys :=
  fun q => if q = path then some data else fs q

/-- Reading a written file back. -/
def readFile (fs : FileSys) (path : List Char) : Option (List Nat) := fs path

theorem hexVal_lt_16 (c : Char) (h : isHexDigit c = true) : hexVal c < 16 := by
  simp only [isHexDigit, Bool.or_eq_true, Bool.and_eq_true, decide_eq_true_eq] at h
  unfold hexVal
  split
  · rename_i h1
    simp only [Bool.and_eq_true, decide_eq_true_eq] at h1
    omega
  · split
    · rename_i h1 h2
      simp only [Bool.and_eq_true, decide_eq_true_eq] at h2
      omega
    · split
      · rename_i h1 h2 h3
        simp only [Bool.and_eq_true, decide_eq_true_eq] at h3
        omega
      · rename_i h1 h2 h3
        simp only [Bool.and_eq_true, decide_eq_true_eq] at h1 h2 h3
        omega

theorem fhb_nil : findHexBytes [] = [] := by
  rw [findHexBytes.eq_def]

/-- The scanner emits the value of a well-formed token found at the current
position and resumes after it. -/
theorem fhb_good (h1 h2 : Char) (l : List Char)
    (hh1 : isHexDigit h1 = true) (hh2 : isHexDigit h2 = true) :
    findHexBytes ('0' :: 'x' :: h1 :: h2 :: l) =
      (16 * hexVal h1 + hexVal h2) :: findHexBytes l := by
  rw [findHexBytes]
  exact if_pos ⟨hh1, hh2⟩

/-- A failed match attempt (payload not two hex digits) resumes scanning
one position further on. -/
theorem fhb_bad (h1 h2 : Char) (l : List Char)
    (hm : ¬(isHexDigit h1 = true ∧ isHexDigit h2 = true)) :
    findHexBytes ('0' :: 'x' :: h1 :: h2 :: l) = findHexBytes ('x' :: h1 :: h2 :: l) := by
  rw [findHexBytes]
  exact if_neg hm

/-- The scanner moves on by one position whenever no match starts at the
current one. -/
theorem fhb_skip (c : Char) (rest : List Char)
    (h : ∀ h1 h2 r2, rest = 'x' :: h1 :: h2 :: r2 →
      ¬(c = '0' ∧ isHexDigit h1 = true ∧ isHexDigit h2 = true)) :
    findHexBytes (c :: rest) = findHexBytes rest := by
  rw [findHexBytes.eq_def]
  split
  · rename_i h1 h2 r2 heq
    injection heq with hc hrest
    have hno := h h1 h2 r2 hrest
    rw [if_neg (fun hh => hno ⟨hc, hh.1, hh.2⟩)]
    rw [hrest]
  · rename_i hd tl hno heq
    injection heq with hc hrest
    rw [hrest]
  · rename_i heq
    exact absurd heq (by simp)

/-- A position holding a character other than zero never starts a match. -/
theorem fhb_skip_ne (c : Char) (rest : List Char) (hc : c ≠ '0') :
    findHexBytes (c :: rest) = findHexBytes rest :=
  fhb_skip c rest (fun _ _ _ _ hcon => hc hcon.1)

/-- Every byte produced by the hex scanner is below 256. -/
theorem findHexBytes_lt_256 : ∀ l : List Char, ∀ b ∈ findHexBytes l, b < 256 := by
  intro l
  induction l using findHexBytes.induct with
  | case1 h1 h2 rest2 hcond ih =>
    intro b hb
    rw [fhb_good _ _ _ hcond.1 hcond.2, List.mem_cons] at hb
    rcases hb with hb | hb
    · subst hb
      have v1 := hexVal_lt_16 h1 hcond.1
      have v2 := hexVal_lt_16 h2 hcond.2
      omega
    · exact ih b hb
  | case2 h1 h2 rest2 hcond ih =>
    intro b hb
    rw [fhb_bad h1 h2 rest2 hcond] at hb
    exact ih b hb
  | case3 c rest hshape ih =>
    intro b hb
    rw [fhb_skip c rest (fun a1 a2 r2 heq hcon => hshape a1 a2 r2 hcon.1 heq)] at hb
    exact ih b hb
  | case4 =>
    intro b hb
    rw [fhb_nil] at hb
    exact absurd hb (by simp)

/-- Scanning past a malformed token that immediately precedes either the
end of the body or a comma-space separator yields the scan of what
follows the token. -/
theorem fhb_malformed (c1 c2 : Char) (l : List Char)
    (hm : ¬(isHexDigit c1 = true ∧ isHexDigit c2 = true))
    (hl : l = [] ∨ ∃ r, l = ',' :: ' ' :: r) :
    findHexBytes ('0' :: 'x' :: c1 :: c2 :: l) = findHexBytes l := by
  rw [fhb_bad c1 c2 l hm]
  rw [fhb_skip_ne 'x' (c1 :: c2 :: l) (by decide)]
  have step1 : findHexBytes (c1 :: c2 :: l) = findHexBytes (c2 :: l) := by
    apply fhb_skip
    intro a b r2 heq hcon
    rcases hl with hl | ⟨r, hl⟩
    · subst hl
      simp at heq
    · subst hl
      simp only [List.cons.injEq] at heq
      rcases heq with ⟨e1, e2, e3, e4⟩
      subst e2
      exact absurd hcon.2.1 (by decide)
  have step2 : findHexBytes (c2 :: l) = findHexBytes l := by
    apply fhb_skip
    intro a b r2 heq hcon
    rcases hl with hl | ⟨r, hl⟩
    · subst hl
      simp at heq
    · subst hl
      simp only [List.cons.injEq] at heq
      rcases heq with ⟨e1, e2, e3⟩
      exact absurd e1 (by decide)
  rw [step1, step2]

/-- Scanning a comma-space separator contributes nothing. -/
theorem fhb_sep (r : List Char) :
    findHexBytes (',' :: ' ' :: r) = findHexBytes r := by
  rw [fhb_skip_ne ',' (' ' :: r) (by decide)]
  rw [fhb_skip_ne ' ' r (by decide)]

theorem fhb_renderBody (ts : List Tok) (h : wfToks ts = true) :
    findHexBytes (renderBody ts) = goodVals ts := by
  induction ts with
  | nil =>
    rw [renderBody, goodVals, fhb_nil]
  | cons t ts ih =>
    rw [wfToks, List.all_cons, Bool.and_eq_true] at h
    have hts : wfToks ts = true := h.2
    have hih := ih hts
    cases ts with
    | nil =>
      cases t with
      | good h1 h2 =>
        rw [wfTok, Bool.and_eq_true] at h
        have hrb : renderBody [Tok.good h1 h2] = '0' :: 'x' :: h1 :: h2 :: [] := rfl
        rw [hrb, fhb_good h1 h2 [] h.1.1 h.1.2, fhb_nil]
        rfl
      | malformed c1 c2 =>
        rw [wfTok] at h
        have hm : ¬(isHexDigit c1 = true ∧ isHexDigit c2 = true) := by
          intro hcon
          rw [hcon.1, hcon.2] at h
          exact absurd h.1 (by decide)
        have hrb : renderBody [Tok.malformed c1 c2] = '0' :: 'x' :: c1 :: c2 :: [] := rfl
        rw [hrb, fhb_malformed c1 c2 [] hm (Or.inl rfl), fhb_nil]
        rfl
    | cons t2 ts2 =>
      cases t with
      | good h1 h2 =>
        rw [wfTok, Bool.and_eq_true] at h
        have hrb : renderBody (Tok.good h1 h2 :: t2 :: ts2) =
            '0' :: 'x' :: h1 :: h2 :: ',' :: ' ' :: renderBody (t2 :: ts2) := rfl
        rw [hrb, fhb_good h1 h2 _ h.1.1 h.1.2, fhb_sep, hih]
        rfl
      | malformed c1 c2 =>
        rw [wfTok] at h
        have hm : ¬(isHexDigit c1 = true ∧ isHexDigit c2 = true) := by
          intro hcon
          rw [hcon.1, hcon.2] at h
          exact absurd h.1 (by decide)
        have hrb : renderBody (Tok.malformed c1 c2 :: t2 :: ts2) =
            '0' :: 'x' :: c1 :: c2 :: ',' :: ' ' :: renderBody (t2 :: ts2) := rfl
        rw [hrb, fhb_malformed c1 c2 _ hm (Or.inr ⟨renderBody (t2 :: ts2), rfl⟩), fhb_sep, hih]
        rfl

/-- Claim C2: for every declaration body, the decoded buffer holds exactly
the integer values (each below 256) of the well-formed two-hex-digit
tokens, in left-to-right order of occurrence in the body text; tokens with
non-hex characters in the expected width do not match and are silently
excluded, and no error is raised (the scanner is a total function). -/
theorem c2_hex_token_decode (ts : List Tok) (h : wfToks ts = true) :
    findHexBytes (renderBody ts) = goodVals ts ∧
      ∀ b ∈ findHexBytes (renderBody ts), b < 256 :=
  ⟨fhb_renderBody ts h, fun b hb => findHexBytes_lt_256 (renderBody ts) b hb⟩

/-- Witness for C2: a concrete body with four good tokens and one
malformed token decodes to exactly the four good values, in order. -/
theorem c2_witness :
    findHexBytes (renderBody [Tok.good 'D' 'E', Tok.good 'A' 'D', Tok.malformed 'G' '1',
        Tok.good 'b' 'e', Tok.good 'e' 'f']) = [222, 173, 190, 239] := by
  have h := (c2_hex_token_decode [Tok.good 'D' 'E', Tok.good 'A' 'D', Tok.malformed 'G' '1',
    Tok.good 'b' 'e', Tok.good 'e' 'f'] (by decide)).1
  rw [h]
  decide

/-- Claim C7: on the mapping binding the red-suffixed name to b1 and the
green-suffixed name to b2, requesting the green suffix selects the unique
name ending with it and returns b2. -/
theorem c7_suffix_selects_unique (b1 b2 : List Nat) :
    selectData [("mat_r".toList, b1), ("mat_g".toList, b2)] "_g".toList = some b2 := rfl

/-- Claim C4: on an empty mapping no selection is made: every suffix is
skipped with a diagnostic, and the channel loop still processes every
remaining pair and finishes normally (no exception), writing nothing. -/
theorem c4_empty_mapping_skipped (channels : List (List Char × List Char)) :
    processChannels [] channels = Except.ok [] ∧
      ∀ suffix, selectOutcome [] suffix = SelectResult.skipped := by
  constructor
  · induction channels with
    | nil => rfl
    | cons ch rest ih =>
      rcases ch with ⟨suffix, outName⟩
      have hsel : selectOutcome [] suffix = SelectResult.skipped := rfl
      rw [processChannels, hsel]
      exact ih
  · intro suffix
    rfl

/-- Claim C1 (code bug): with the non-empty mapping holding only the name
bindata_mud and the requested non-empty suffix for the red channel, no
name ends with the suffix, the fallback candidate list is the whole key
list, and the selection expression then indexes an empty list: the model
yields the IndexError outcome and the channel loop aborts before the
remaining pair, instead of the fallback-then-warn behaviour the claim
states. -/
theorem c1_suffix_mismatch_raises :
    selectOutcome [("bindata_mud".toList, [72, 68, 82])] "_r".toList =
        SelectResult.indexError ∧
      processChannels [("bindata_mud".toList, [72, 68, 82])]
        [("_r".toList, "mud_r.hdr".toList), ([], "mud.hdr".toList)] = Except.error () := by
  constructor
  · rfl
  · rfl

/-- Claim C9: the write step stores exactly the selected bytes at the
destination path, replacing any existing content there, and leaves every
other path untouched; reading the path back returns the bytes unchanged. -/
theorem c9_write_read_round_trip (fs : FileSys) (path : List Char) (data : List Nat)
    (q : List Char) (hq : q ≠ path) :
    readFile (writeFile fs path data) path = some data ∧
      readFile (writeFile fs path data) q = fs q := by
  constructor
  · show (if path = path then some data else fs path) = some data
    rw [if_pos rfl]
  · show (if q = path then some data else fs q) = fs q
    rw [if_neg hq]

/-- Witness for C9: overwriting a path that already holds other bytes and
reading it back returns exactly the new bytes; an unrelated path keeps its
old contents. -/
theorem c9_witness :
    readFile (writeFile (fun _ => some [9, 9]) "mud.hdr".toList [1, 2, 3, 4]) "mud.hdr".toList =
        some [1, 2, 3, 4] ∧
      readFile (writeFile (fun _ => some [9, 9]) "mud.hdr".toList [1, 2, 3, 4]) "x".toList =
        (fun _ => some ([9, 9] : List Nat)) "x".toList :=
  c9_write_read_round_trip (fun _ => some [9, 9]) ("mud.hdr".toList) [1, 2, 3, 4]
    ("x".toList) (by decide)

/-- Claim C8: when at least two names end with the requested non-empty
suffix, selection returns the first name in mapping (insertion) order that
ends with the suffix; selection is a pure function of the mapping and the
suffix, so repeated runs return the same name. -/
theorem c8_first_match_tie_break (arrays : List (List Char × List Nat))
    (suffix n : List Char) (hs : suffix ≠ [])
    (hmulti : 2 ≤ ((arrays.map Prod.fst).filter (fun k => endsWith k suffix)).length)
    (hn : ((arrays.map Prod.fst).filter (fun k => endsWith k suffix)).head? = some n) :
    selectOutcome arrays suffix = SelectResult.selected n := by
  rcases hcases : (arrays.map Prod.fst).filter (fun k => endsWith k suffix) with _ | ⟨k0, ks⟩
  · rw [hcases] at hmulti
    simp at hmulti
  · rw [hcases] at hn
    simp only [List.head?] at hn
    injection hn with hn
    have hsuf : suffix.isEmpty = false := by
      cases suffix with
      | nil => exact absurd rfl hs
      | cons a as => rfl
    have hall : (k0 :: ks).filter (fun k => endsWith k suffix) = k0 :: ks := by
      rw [List.filter_eq_self]
      intro a ha
      rw [← hcases] at ha
      exact (List.mem_filter.mp ha).2
    unfold selectOutcome
    simp only [hcases, List.isEmpty_cons, Bool.false_eq_true, if_false, hsuf, hall,
      List.head?]
    rw [hn]

/-- Witness for C8: with two names both ending in the requested suffix,
selection returns the first one in insertion order. -/
theorem c8_witness :
    selectOutcome [("wax_k".toList, [1]), ("oldwax_k".toList, [2])] "_k".toList =
      SelectResult.selected ("wax_k".toList) :=
  c8_first_match_tie_break [("wax_k".toList, [1]), ("oldwax_k".toList, [2])]
    ("_k".toList) ("wax_k".toList) (by decide) (by decide) (by decide)

theorem dictGet_cons (e : List Char × List Nat) (d : List (List Char × List Nat))
    (k : List Char) :
    dictGet (e :: d) k = if (e.1 == k) = true then some e.2 else dictGet d k := by
  unfold dictGet
  rcases he : (e.1 == k) <;> simp [List.find?_cons, he]

theorem dictGet_map_update_self (k : List Char) (v : List Nat) :
    ∀ d : List (List Char × List Nat), d.any (fun e => e.1 == k) = true →
      dictGet (d.map (fun e => if e.1 == k then (k, v) else e)) k = some v := by
  intro d
  induction d with
  | nil => intro h; simp at h
  | cons e d ih =>
    intro h
    rw [List.map_cons]
    by_cases he : (e.1 == k) = true
    · rw [if_pos he, dictGet_cons]
      simp
    · rw [if_neg he, dictGet_cons, if_neg (by simpa using he)]
      apply ih
      rw [List.any_cons, Bool.or_eq_true] at h
      rcases h with h | h
      · exact absurd h he
      · exact h

theorem dictGet_map_update_ne (k : List Char) (v : List Nat) (k2 : List Char)
    (hne : k2 ≠ k) :
    ∀ d : List (List Char × List Nat),
      dictGet (d.map (fun e => if e.1 == k then (k, v) else e)) k2 = dictGet d k2 := by
  intro d
  induction d with
  | nil => rfl
  | cons e d ih =>
    rw [List.map_cons]
    by_cases he : (e.1 == k) = true
    · rw [if_pos he, dictGet_cons, dictGet_cons]
      have he2 : e.1 = k := by simpa using he
      have hk : ((k, v).1 == k2) = false := by
        simp only [beq_eq_false_iff_ne, ne_eq]
        exact fun hc => hne hc.symm
      have he3 : (e.1 == k2) = false := by
        rw [he2]
        simpa using hk
      rw [hk, he3]
      simp only [Bool.false_eq_true, if_false]
      exact ih
    · rw [if_neg he, dictGet_cons, dictGet_cons]
      by_cases hek : (e.1 == k2) = true
      · rw [if_pos hek, if_pos hek]
      · rw [if_neg hek, if_neg hek]
        exact ih

theorem dictGet_append_single_self (k : List Char) (v : List Nat) :
    ∀ d : List (List Char × List Nat), d.any (fun e => e.1 == k) = false →
      dictGet (d ++ [(k, v)]) k = some v := by
  intro d
  induction d with
  | nil =>
    intro h
    rw [List.nil_append, dictGet_cons]
    simp
  | cons e d ih =>
    intro h
    rw [List.any_cons, Bool.or_eq_false_iff] at h
    rw [List.cons_append, dictGet_cons, if_neg (by simp [h.1])]
    exact ih h.2

theorem dictGet_append_single_ne (k : List Char) (v : List Nat) (k2 : List Char)
    (hne : k2 ≠ k) :
    ∀ d : List (List Char × List Nat), dictGet (d ++ [(k, v)]) k2 = dictGet d k2 := by
  intro d
  induction d with
  | nil =>
    rw [List.nil_append, dictGet_cons]
    have hk : ((k, v).1 == k2) = false := by
      simp only [beq_eq_false_iff_ne, ne_eq]
      exact fun hc => hne hc.symm
    rw [hk]
    simp
  | cons e d ih =>
    rw [List.cons_append, dictGet_cons, dictGet_cons]
    by_cases hek : (e.1 == k2) = true
    · rw [if_pos hek, if_pos hek]
    · rw [if_neg hek, if_neg hek]
      exact ih

/-- Looking up a key after a dict store: the stored key now maps to the
stored value, every other key is unaffected. -/
theorem dictGet_insert (k : List Char) (v : List Nat) (d : List (List Char × List Nat))
    (k2 : List Char) :
    dictGet (dictInsert k v d) k2 = if k2 = k then some v else dictGet d k2 := by
  by_cases hk : k2 = k
  · rw [if_pos hk]
    subst hk
    unfold dictInsert
    by_cases hany : d.any (fun e => e.1 == k2) = true
    · rw [if_pos hany]
      exact dictGet_map_update_self k2 v d hany
    · rw [if_neg hany]
      exact dictGet_append_single_self k2 v d (Bool.eq_false_iff.mpr hany)
  · rw [if_neg hk]
    unfold dictInsert
    by_cases hany : d.any (fun e => e.1 == k) = true
    · rw [if_pos hany]
      exact dictGet_map_update_ne k v k2 hk d
    · rw [if_neg hany]
      exact dictGet_append_single_ne k v k2 hk d

/-- Folding the match list into the dict: the value found for a name is
the decoding of the last match with that name, and with no such match the
starting dict decides. -/
theorem extract_fold_get (name : List Char) :
    ∀ (ms : List (List Char × List Char)) (d : List (List Char × List Nat)),
      dictGet (ms.foldl (fun d2 m => dictInsert m.1 (findHexBytes m.2) d2) d) name =
        match lastOccurrenceBody name ms with
        | some b => some (findHexBytes b)
        | none => dictGet d name := by
  intro ms
  induction ms with
  | nil => intro d; rfl
  | cons m ms ih =>
    intro d
    rcases m with ⟨mn, mb⟩
    rw [List.foldl_cons, ih (dictInsert mn (findHexBytes mb) d), lastOccurrenceBody]
    cases hms : lastOccurrenceBody name ms with
    | some b2 => rfl
    | none =>
      simp only []
      rw [dictGet_insert]
      by_cases hmn : mn = name
      · subst hmn
        rw [if_pos rfl, if_pos rfl]
      · rw [if_neg hmn, if_neg (fun hc => hmn hc.symm)]

/-- Claim C5: for every document and name, the extraction result maps the
name to the bytes decoded from the body of the last match carrying that
name in document order; in particular, when a name appears more than once,
the later occurrence's decoding overwrites the earlier one. -/
theorem c5_last_write_wins (content name : List Char) :
    dictGet (extract_arrays content) name =
      (lastOccurrenceBody name (scanDecls content)).map findHexBytes := by
  unfold extract_arrays
  rw [extract_fold_get name (scanDecls content) []]
  cases lastOccurrenceBody name (scanDecls content) <;> rfl

/-- Claim C6: a document with zero declaration matches extracts to the
empty mapping; extraction is a total function, so no error is raised. -/
theorem c6_no_match_empty_result (content : List Char) (h : scanDecls content = []) :
    extract_arrays content = [] := by
  unfold extract_arrays
  rw [h]
  rfl

/-- Witness for C6: a document with a declaration of a different type has
no match and extracts to the empty mapping. -/
theorem c6_witness : extract_arrays "const int x = 5;".toList = [] :=
  c6_no_match_empty_result ("const int x = 5;".toList) (by decide)

theorem bind_some_eq {α β : Type} (x : α) (f : α → Option β) : (some x).bind f = f x := rfl

theorem lit_self : ∀ ts r : List Char, lit ts (ts ++ r) = some r := by
  intro ts
  induction ts with
  | nil => intro r; rfl
  | cons t ts ih =>
    intro r
    rw [List.cons_append]
    unfold lit
    rw [if_pos rfl]
    exact ih r

theorem lit_one (c : Char) (X : List Char) : lit [c] (c :: X) = some X := by
  unfold lit
  rw [if_pos rfl]
  rfl

theorem lit_eq_some : ∀ ts s r : List Char, lit ts s = some r ↔ s = ts ++ r := by
  intro ts
  induction ts with
  | nil =>
    intro s r
    constructor
    · intro h
      injection h with h
    · intro h
      rw [h]
      rfl
  | cons t ts ih =>
    intro s r
    cases s with
    | nil =>
      constructor
      · intro h
        exact absurd h (by unfold lit; simp)
      · intro h
        exact absurd h (by simp)
    | cons c cs =>
      unfold lit
      by_cases hc : c = t
      · rw [if_pos hc, ih cs r, List.cons_append]
        subst hc
        constructor
        · intro h
          rw [h]
        · intro h
          injection h with h1 h2
      · rw [if_neg hc]
        constructor
        · intro h
          exact absurd h (by simp)
        · intro h
          rw [List.cons_append] at h
          injection h with h1 _
          exact absurd h1 hc

theorem lit_eq_none (ts s : List Char) (h : ¬ (ts <+: s)) : lit ts s = none := by
  cases hl : lit ts s with
  | none => rfl
  | some r => exact absurd ⟨r, ((lit_eq_some ts s r).mp hl).symm⟩ h

theorem matchDeclAt_none_of_lit (s : List Char) (h : lit constLit s = none) :
    matchDeclAt s = none := by
  unfold matchDeclAt
  rw [h]
  rfl

theorem takeWhile_append_sat (p : Char → Bool) :
    ∀ l r : List Char, (∀ c ∈ l, p c = true) →
      (l ++ r).takeWhile p = l ++ r.takeWhile p := by
  intro l
  induction l with
  | nil => intro r _; rfl
  | cons c l ih =>
    intro r h
    rw [List.cons_append, List.takeWhile_cons, h c (by simp)]
    rw [if_pos rfl]
    rw [ih r (fun c2 hc2 => h c2 (by simp [hc2])), List.cons_append]

theorem dropWhile_append_sat (p : Char → Bool) :
    ∀ l r : List Char, (∀ c ∈ l, p c = true) →
      (l ++ r).dropWhile p = r.dropWhile p := by
  intro l
  induction l with
  | nil => intro r _; rfl
  | cons c l ih =>
    intro r h
    rw [List.cons_append, List.dropWhile_cons, h c (by simp)]
    simp only [if_true]
    exact ih r (fun c2 hc2 => h c2 (by simp [hc2]))

theorem takeWhile_append_stop (p : Char → Bool) (r : List Char) (hr : r.takeWhile p = []) :
    ∀ l : List Char, (l ++ r).takeWhile p = l.takeWhile p := by
  intro l
  induction l with
  | nil => simpa using hr
  | cons c l ih =>
    rw [List.cons_append, List.takeWhile_cons, List.takeWhile_cons]
    by_cases hc : p c = true
    · rw [hc]
      simp only [if_true]
      rw [ih]
    · rw [Bool.eq_false_iff.mpr hc]
      simp

theorem dropWhile_append_stop (p : Char → Bool) (r : List Char) (hr : r.dropWhile p = r) :
    ∀ l : List Char, (l ++ r).dropWhile p = l.dropWhile p ++ r := by
  intro l
  induction l with
  | nil => simpa using hr
  | cons c l ih =>
    rw [List.cons_append, List.dropWhile_cons, List.dropWhile_cons]
    by_cases hc : p c = true
    · rw [hc]
      simp only [if_true]
      exact ih
    · rw [Bool.eq_false_iff.mpr hc]
      simp

theorem dropWhile_head_false (p : Char → Bool) :
    ∀ l : List Char, ∀ d : Char, ∀ dt : List Char, l.dropWhile p = d :: dt → p d = false := by
  intro l
  induction l with
  | nil => intro d dt h; exact absurd h (by simp)
  | cons c t ih =>
    intro d dt h
    rw [List.dropWhile_cons] at h
    by_cases hc : p c = true
    · rw [hc, if_pos rfl] at h
      exact ih d dt h
    · rw [Bool.eq_false_iff.mpr hc] at h
      rw [if_neg (by simp)] at h
      injection h with h1 h2
      rw [← h1]
      exact Bool.eq_false_iff.mpr hc

theorem dropSpaces_space_char (c : Char) (l : List Char) (hc : isSpace c = false) :
    dropSpaces (' ' :: c :: l) = c :: l := by
  show (c :: l).dropWhile isSpace = c :: l
  rw [List.dropWhile_cons, hc]
  simp

theorem dropSpaces_stop_append (w X : List Char) (c0 : Char) (ct : List Char)
    (hw : w = c0 :: ct) (hc : isSpace c0 = false) :
    dropSpaces (' ' :: (w ++ X)) = w ++ X := by
  subst hw
  rw [List.cons_append]
  exact dropSpaces_space_char c0 (ct ++ X) hc

theorem dropSpaces1_stop_append (w X : List Char) (c0 : Char) (ct : List Char)
    (hw : w = c0 :: ct) (hc : isSpace c0 = false) :
    dropSpaces1 (' ' :: (w ++ X)) = some (w ++ X) := by
  subst hw
  rw [List.cons_append]
  show some ((c0 :: (ct ++ X)).dropWhile isSpace) = some (c0 :: (ct ++ X))
  rw [List.dropWhile_cons, hc]
  simp

theorem digit_not_space (c : Char) (h : isDigitChar c = true) : isSpace c = false := by
  simp only [isDigitChar, Bool.and_eq_true, decide_eq_true_eq] at h
  simp only [isSpace, Bool.or_eq_false_iff, decide_eq_false_iff_not]
  omega

theorem word_not_space (c : Char) (h : isWordChar c = true) : isSpace c = false := by
  simp only [isWordChar, Bool.or_eq_true, Bool.and_eq_true, decide_eq_true_eq] at h
  simp only [isSpace, Bool.or_eq_false_iff, decide_eq_false_iff_not]
  omega

theorem takeDigits1_exact (digits Y : List Char) (hne : digits ≠ [])
    (hall : ∀ c ∈ digits, isDigitChar c = true) :
    takeDigits1 (digits ++ '>' :: Y) = some ('>' :: Y) := by
  unfold takeDigits1
  have ht : (digits ++ '>' :: Y).takeWhile isDigitChar = digits := by
    rw [takeWhile_append_sat isDigitChar digits ('>' :: Y) hall]
    have h2 : ('>' :: Y).takeWhile isDigitChar = [] := rfl
    rw [h2, List.append_nil]
  have hd : (digits ++ '>' :: Y).dropWhile isDigitChar = '>' :: Y := by
    rw [dropWhile_append_sat isDigitChar digits ('>' :: Y) hall]
    rfl
  rw [ht, hd]
  cases digits with
  | nil => exact absurd rfl hne
  | cons d dt => rfl

theorem takeWord1_exact (name Y : List Char) (hne : name ≠ [])
    (hall : ∀ c ∈ name, isWordChar c = true) :
    takeWord1 (name ++ ' ' :: Y) = some (name, ' ' :: Y) := by
  unfold takeWord1
  have ht : (name ++ ' ' :: Y).takeWhile isWordChar = name := by
    rw [takeWhile_append_sat isWordChar name (' ' :: Y) hall]
    have h2 : (' ' :: Y).takeWhile isWordChar = [] := rfl
    rw [h2, List.append_nil]
  have hd : (name ++ ' ' :: Y).dropWhile isWordChar = ' ' :: Y := by
    rw [dropWhile_append_sat isWordChar name (' ' :: Y) hall]
    rfl
  rw [ht, hd]
  cases name with
  | nil => exact absurd rfl hne
  | cons n0 nt => rfl

theorem takeBody1_shape (b0 : Char) (bt tail : List Char) (hb0 : b0 ≠ '}') :
    takeBody1 ((b0 :: bt) ++ '}' :: tail) =
      some ((b0 :: bt).takeWhile notBrace,
        (b0 :: bt).dropWhile notBrace ++ '}' :: tail) := by
  unfold takeBody1
  have ht : ((b0 :: bt) ++ '}' :: tail).takeWhile notBrace =
      (b0 :: bt).takeWhile notBrace :=
    takeWhile_append_stop notBrace ('}' :: tail) rfl (b0 :: bt)
  have hd : ((b0 :: bt) ++ '}' :: tail).dropWhile notBrace =
      (b0 :: bt).dropWhile notBrace ++ '}' :: tail :=
    dropWhile_append_stop notBrace ('}' :: tail) rfl (b0 :: bt)
  rw [ht, hd]
  have hb : notBrace b0 = true := by
    unfold notBrace
    exact bne_iff_ne.mpr hb0
  have hne : ((b0 :: bt).takeWhile notBrace).isEmpty = false := by
    rw [List.takeWhile_cons, hb, if_pos rfl]
    rfl
  rw [hne]
  simp

theorem lit_close (body tail : List Char) :
    ∃ after, lit ['}'] (body.dropWhile notBrace ++ '}' :: tail) = some after := by
  cases hdw : body.dropWhile notBrace with
  | nil =>
    refine ⟨tail, ?_⟩
    rw [List.nil_append]
    exact lit_one '}' tail
  | cons d dt =>
    have hd : notBrace d = false := dropWhile_head_false notBrace body d dt hdw
    have hd2 : d = '}' := by
      unfold notBrace at hd
      by_contra hne
      rw [bne_iff_ne.mpr hne] at hd
      exact absurd hd (by simp)
    subst hd2
    refine ⟨dt ++ '}' :: tail, ?_⟩
    rw [List.cons_append]
    exact lit_one '}' (dt ++ '}' :: tail)

/-- The declaration matcher succeeds on the rendered declaration shape and
captures the name and the body text up to the first closing brace (the
whole body when the body holds no closing brace), for every decimal size,
word-character name, and body whose first character is not a closing
brace. -/
theorem matchDeclAt_shape (digits name body tail : List Char)
    (hdig : digits ≠ []) (hdigAll : ∀ c ∈ digits, isDigitChar c = true)
    (hnm : name ≠ []) (hnmAll : ∀ c ∈ name, isWordChar c = true)
    (hb : ∃ c t, body = c :: t ∧ c ≠ '}') :
    ∃ after, matchDeclAt (constLit ++ ' ' :: (arrayLit ++ ' ' :: (charLit ++ ' ' ::
        (digits ++ '>' :: ' ' :: (name ++ ' ' :: '=' :: ' ' :: '{' ::
          (body ++ '}' :: tail)))))) =
      some (name, body.takeWhile notBrace, after) := by
  obtain ⟨b0, bt, rfl, hb0⟩ := hb
  obtain ⟨d0, dt, hd⟩ : ∃ c t, digits = c :: t := by
    cases digits with
    | nil => exact absurd rfl hdig
    | cons a b => exact ⟨a, b, rfl⟩
  obtain ⟨n0, nt, hn⟩ : ∃ c t, name = c :: t := by
    cases name with
    | nil => exact absurd rfl hnm
    | cons a b => exact ⟨a, b, rfl⟩
  obtain ⟨after, h13⟩ := lit_close (b0 :: bt) tail
  refine ⟨after, ?_⟩
  have h1 : dropSpaces1 (' ' :: (arrayLit ++ ' ' :: (charLit ++ ' ' ::
      (digits ++ '>' :: ' ' :: (name ++ ' ' :: '=' :: ' ' :: '{' ::
        ((b0 :: bt) ++ '}' :: tail)))))) =
      some (arrayLit ++ ' ' :: (charLit ++ ' ' ::
        (digits ++ '>' :: ' ' :: (name ++ ' ' :: '=' :: ' ' :: '{' ::
          ((b0 :: bt) ++ '}' :: tail))))) :=
    dropSpaces1_stop_append arrayLit _ 's' ("td::array<unsigned".toList) rfl (by decide)
  have h2 : dropSpaces1 (' ' :: (charLit ++ ' ' ::
      (digits ++ '>' :: ' ' :: (name ++ ' ' :: '=' :: ' ' :: '{' ::
        ((b0 :: bt) ++ '}' :: tail))))) =
      some (charLit ++ ' ' :: (digits ++ '>' :: ' ' ::
        (name ++ ' ' :: '=' :: ' ' :: '{' :: ((b0 :: bt) ++ '}' :: tail)))) :=
    dropSpaces1_stop_append charLit _ 'c' ("har,".toList) rfl (by decide)
  have h3 : dropSpaces (' ' :: (digits ++ '>' :: ' ' ::
      (name ++ ' ' :: '=' :: ' ' :: '{' :: ((b0 :: bt) ++ '}' :: tail)))) =
      digits ++ '>' :: ' ' :: (name ++ ' ' :: '=' :: ' ' :: '{' ::
        ((b0 :: bt) ++ '}' :: tail)) :=
    dropSpaces_stop_append digits _ d0 dt hd
      (digit_not_space d0 (hdigAll d0 (by rw [hd]; exact List.mem_cons_self d0 dt)))
  have h4 : takeDigits1 (digits ++ '>' :: ' ' ::
      (name ++ ' ' :: '=' :: ' ' :: '{' :: ((b0 :: bt) ++ '}' :: tail))) =
      some ('>' :: ' ' :: (name ++ ' ' :: '=' :: ' ' :: '{' ::
        ((b0 :: bt) ++ '}' :: tail))) :=
    takeDigits1_exact digits _ hdig hdigAll
  have h5 : lit ['>'] ('>' :: ' ' :: (name ++ ' ' :: '=' :: ' ' :: '{' ::
      ((b0 :: bt) ++ '}' :: tail))) =
      some (' ' :: (name ++ ' ' :: '=' :: ' ' :: '{' :: ((b0 :: bt) ++ '}' :: tail))) :=
    lit_one '>' _
  have h6 : dropSpaces1 (' ' :: (name ++ ' ' :: '=' :: ' ' :: '{' ::
      ((b0 :: bt) ++ '}' :: tail))) =
      some (name ++ ' ' :: '=' :: ' ' :: '{' :: ((b0 :: bt) ++ '}' :: tail)) :=
    dropSpaces1_stop_append name _ n0 nt hn
      (word_not_space n0 (hnmAll n0 (by rw [hn]; exact List.mem_cons_self n0 nt)))
  have h7 : takeWord1 (name ++ ' ' :: '=' :: ' ' :: '{' :: ((b0 :: bt) ++ '}' :: tail)) =
      some (name, ' ' :: '=' :: ' ' :: '{' :: ((b0 :: bt) ++ '}' :: tail)) :=
    takeWord1_exact name _ hnm hnmAll
  have h8 : dropSpaces (' ' :: '=' :: ' ' :: '{' :: ((b0 :: bt) ++ '}' :: tail)) =
      '=' :: ' ' :: '{' :: ((b0 :: bt) ++ '}' :: tail) :=
    dropSpaces_space_char '=' _ (by decide)
  have h9 : lit ['='] ('=' :: ' ' :: '{' :: ((b0 :: bt) ++ '}' :: tail)) =
      some (' ' :: '{' :: ((b0 :: bt) ++ '}' :: tail)) :=
    lit_one '=' _
  have h10 : dropSpaces (' ' :: '{' :: ((b0 :: bt) ++ '}' :: tail)) =
      '{' :: ((b0 :: bt) ++ '}' :: tail) :=
    dropSpaces_space_char '{' _ (by decide)
  have h11 : lit ['{'] ('{' :: ((b0 :: bt) ++ '}' :: tail)) =
      some ((b0 :: bt) ++ '}' :: tail) :=
    lit_one '{' _
  have h12 : takeBody1 ((b0 :: bt) ++ '}' :: tail) =
      some ((b0 :: bt).takeWhile notBrace,
        (b0 :: bt).dropWhile notBrace ++ '}' :: tail) :=
    takeBody1_shape b0 bt tail hb0
  simp only [matchDeclAt, lit_self, bind_some_eq, h1, h2, h3, h4, h5, h6, h7, h8, h9,
    h10, h11, h12, h13]

theorem renderDecl_append (digits name body tail : List Char) :
    renderDecl digits name body ++ tail =
      constLit ++ ' ' :: (arrayLit ++ ' ' :: (charLit ++ ' ' ::
        (digits ++ '>' :: ' ' :: (name ++ ' ' :: '=' :: ' ' :: '{' ::
          (body ++ '}' :: tail))))) := by
  unfold renderDecl
  simp only [List.append_assoc, List.cons_append, List.singleton_append, List.nil_append]

theorem scanDecls_cons_of_match (c : Char) (rest : List Char)
    (r : List Char × List Char × List Char)
    (h : matchDeclAt (c :: rest) = some r) :
    scanDecls (c :: rest) = (r.1, r.2.1) :: scanDeclsAux rest.length r.2.2 := by
  unfold scanDecls
  rw [List.length_cons, scanDeclsAux, h]

theorem no_const_at (cur X2 : List Char) (hne : cur ≠ [])
    (hinf : ¬ (constLit <:+: cur)) : ¬ (constLit <+: (cur ++ 'c' :: X2)) := by
  intro hpre
  obtain ⟨t, ht⟩ := hpre
  have hc : constLit = 'c' :: 'o' :: 'n' :: 's' :: 't' :: [] := rfl
  rw [hc] at ht
  simp only [List.cons_append, List.nil_append] at ht
  rcases cur with _ | ⟨a1, cur1⟩
  · exact hne rfl
  rcases cur1 with _ | ⟨a2, cur2⟩
  · simp only [List.cons_append, List.nil_append] at ht
    injection ht with e1 ht2
    injection ht2 with e2 ht3
    exact absurd e2 (by decide)
  rcases cur2 with _ | ⟨a3, cur3⟩
  · simp only [List.cons_append, List.nil_append] at ht
    injection ht with e1 ht2
    injection ht2 with e2 ht3
    injection ht3 with e3 ht4
    exact absurd e3 (by decide)
  rcases cur3 with _ | ⟨a4, cur4⟩
  · simp only [List.cons_append, List.nil_append] at ht
    injection ht with e1 ht2
    injection ht2 with e2 ht3
    injection ht3 with e3 ht4
    injection ht4 with e4 ht5
    exact absurd e4 (by decide)
  rcases cur4 with _ | ⟨a5, cur5⟩
  · simp only [List.cons_append, List.nil_append] at ht
    injection ht with e1 ht2
    injection ht2 with e2 ht3
    injection ht3 with e3 ht4
    injection ht4 with e4 ht5
    injection ht5 with e5 ht6
    exact absurd e5 (by decide)
  · simp only [List.cons_append, List.nil_append] at ht
    injection ht with e1 ht2
    injection ht2 with e2 ht3
    injection ht3 with e3 ht4
    injection ht4 with e4 ht5
    injection ht5 with e5 ht6
    subst e1
    subst e2
    subst e3
    subst e4
    subst e5
    exact hinf ⟨[], cur5, rfl⟩

theorem scanDecls_skip (X2 : List Char) :
    ∀ pre : List Char, ¬ (constLit <:+: pre) →
      scanDecls (pre ++ 'c' :: X2) = scanDecls ('c' :: X2) := by
  intro pre
  induction pre with
  | nil => intro _; rfl
  | cons c0 pre ih =>
    intro hinf
    have hlit : lit constLit ((c0 :: pre) ++ 'c' :: X2) = none :=
      lit_eq_none _ _ (no_const_at (c0 :: pre) X2 (by simp) hinf)
    have hmd : matchDeclAt ((c0 :: pre) ++ 'c' :: X2) = none :=
      matchDeclAt_none_of_lit _ hlit
    rw [List.cons_append] at hmd
    have hpre : ¬ (constLit <:+: pre) := by
      intro hcp
      obtain ⟨s, t, hst⟩ := hcp
      exact hinf ⟨c0 :: s, t, by rw [List.cons_append, List.cons_append, hst]⟩
    rw [List.cons_append]
    unfold scanDecls
    rw [List.length_cons, scanDeclsAux, hmd]
    exact ih hpre

/-- Claim C3: a declaration of the expected shape is matched wherever it
sits in the document (any prefix not containing the keyword const, any
tail), for every decimal size, every word-character name, and every body
whose first character is not a closing brace — in particular bodies
spanning several lines with arbitrary interleaved whitespace, newlines and
comment text.  The captured body runs up to the first closing brace, so a
body with no closing brace (the shape the extractor is written for) is
captured whole, and even a comment holding a closing brace still lets the
declaration match, with the body truncated at that brace. -/
theorem c3_multiline_body_matched (pre digits name body post : List Char)
    (hpre : ¬ (constLit <:+: pre))
    (hdig : digits ≠ []) (hdigAll : ∀ c ∈ digits, isDigitChar c = true)
    (hnm : name ≠ []) (hnmAll : ∀ c ∈ name, isWordChar c = true)
    (hb : ∃ c t, body = c :: t ∧ c ≠ '}') :
    (name, body.takeWhile notBrace) ∈
      scanDecls (pre ++ (renderDecl digits name body ++ post)) := by
  obtain ⟨after, hmatch⟩ := matchDeclAt_shape digits name body post hdig hdigAll hnm hnmAll hb
  have hskip := scanDecls_skip ('o' :: 'n' :: 's' :: 't' :: ' ' :: (arrayLit ++ ' ' ::
    (charLit ++ ' ' :: (digits ++ '>' :: ' ' :: (name ++ ' ' :: '=' :: ' ' :: '{' ::
      (body ++ '}' :: post)))))) pre hpre
  have hshape : pre ++ (renderDecl digits name body ++ post) =
      pre ++ 'c' :: ('o' :: 'n' :: 's' :: 't' :: ' ' :: (arrayLit ++ ' ' ::
        (charLit ++ ' ' :: (digits ++ '>' :: ' ' :: (name ++ ' ' :: '=' :: ' ' :: '{' ::
          (body ++ '}' :: post)))))) := by
    rw [renderDecl_append]
    rfl
  rw [hshape, hskip]
  have hm2 : matchDeclAt ('c' :: ('o' :: 'n' :: 's' :: 't' :: ' ' :: (arrayLit ++ ' ' ::
      (charLit ++ ' ' :: (digits ++ '>' :: ' ' :: (name ++ ' ' :: '=' :: ' ' :: '{' ::
        (body ++ '}' :: post))))))) = some (name, body.takeWhile notBrace, after) := hmatch
  rw [scanDecls_cons_of_match _ _ _ hm2]
  exact List.mem_cons_self _ _

/-- Witness for C3: a declaration whose body spans two lines and holds a
comment, sitting between a leading comment line and trailing text, is
matched with its full body. -/
theorem c3_witness :
    ("bindata_mud".toList, " 0x01,\n  0x02 /* matcap data */ ".toList) ∈
      scanDecls ("// header\n".toList ++
        (renderDecl "4".toList "bindata_mud".toList
          " 0x01,\n  0x02 /* matcap data */ ".toList ++ ";\nint y;\n".toList)) := by
  have h := c3_multiline_body_matched ("// header\n".toList) ("4".toList)
    ("bindata_mud".toList) (" 0x01,\n  0x02 /* matcap data */ ".toList) (";\nint y;\n".toList)
    (by decide) (by decide) (by decide) (by decide) (by decide)
    ⟨' ', "0x01,\n  0x02 /* matcap data */ ".toList, rfl, by decide⟩
  have ht : (" 0x01,\n  0x02 /* matcap data */ ".toList).takeWhile notBrace =
      " 0x01,\n  0x02 /* matcap data */ ".toList := by decide
  rw [ht] at h
  exact h

theorem dropSpaces1_inv (s r : List Char) (h : dropSpaces1 s = some r) :
    ∃ sp, s = sp ++ r ∧ sp ≠ [] ∧ ∀ c ∈ sp, isSpace c = true := by
  cases s with
  | nil => exact absurd h (by unfold dropSpaces1; simp)
  | cons c cs =>
    rw [show dropSpaces1 (c :: cs) =
      if isSpace c then some (cs.dropWhile isSpace) else none from rfl] at h
    by_cases hc : isSpace c = true
    · rw [if_pos hc] at h
      injection h with h
      refine ⟨c :: cs.takeWhile isSpace, ?_, by simp, ?_⟩
      · rw [List.cons_append, ← h, List.takeWhile_append_dropWhile]
      · intro c2 hc2
        rcases List.mem_cons.mp hc2 with rfl | hc2
        · exact hc
        · exact List.mem_takeWhile_imp hc2
    · rw [if_neg hc] at h
      exact absurd h (by simp)

theorem dropSpaces_inv (s : List Char) :
    ∃ sp, s = sp ++ dropSpaces s ∧ ∀ c ∈ sp, isSpace c = true :=
  ⟨s.takeWhile isSpace, (List.takeWhile_append_dropWhile isSpace s).symm,
    fun _ hc => List.mem_takeWhile_imp hc⟩

theorem takeDigits1_inv (s r : List Char) (h : takeDigits1 s = some r) :
    ∃ ds, s = ds ++ r ∧ ds ≠ [] ∧ ∀ c ∈ ds, isDigitChar c = true := by
  unfold takeDigits1 at h
  by_cases he : (s.takeWhile isDigitChar).isEmpty = true
  · rw [if_pos he] at h
    exact absurd h (by simp)
  · rw [if_neg he] at h
    injection h with h
    refine ⟨s.takeWhile isDigitChar, ?_, ?_, fun _ hc => List.mem_takeWhile_imp hc⟩
    · rw [← h, List.takeWhile_append_dropWhile]
    · intro hnil
      exact he (by rw [hnil]; rfl)

theorem takeWord1_inv (s : List Char) (w r : List Char) (h : takeWord1 s = some (w, r)) :
    s = w ++ r ∧ w ≠ [] ∧ ∀ c ∈ w, isWordChar c = true := by
  unfold takeWord1 at h
  by_cases he : (s.takeWhile isWordChar).isEmpty = true
  · rw [if_pos he] at h
    exact absurd h (by simp)
  · rw [if_neg he] at h
    injection h with h
    injection h with h1 h2
    refine ⟨?_, ?_, ?_⟩
    · rw [← h1, ← h2, List.takeWhile_append_dropWhile]
    · intro hnil
      rw [← h1] at hnil
      exact he (by rw [hnil]; rfl)
    · intro c hc
      rw [← h1] at hc
      exact List.mem_takeWhile_imp hc

theorem takeBody1_inv (s : List Char) (b r : List Char) (h : takeBody1 s = some (b, r)) :
    s = b ++ r ∧ b ≠ [] ∧ ∀ c ∈ b, notBrace c = true := by
  unfold takeBody1 at h
  by_cases he : (s.takeWhile notBrace).isEmpty = true
  · rw [if_pos he] at h
    exact absurd h (by simp)
  · rw [if_neg he] at h
    injection h with h
    injection h with h1 h2
    refine ⟨?_, ?_, ?_⟩
    · rw [← h1, ← h2, List.takeWhile_append_dropWhile]
    · intro hnil
      rw [← h1] at hnil
      exact he (by rw [hnil]; rfl)
    · intro c hc
      rw [← h1] at hc
      exact List.mem_takeWhile_imp hc

/-- Inversion of a successful declaration match: the matched input reads
literally as the keyword const, whitespace, the literal array-of-unsigned
text, whitespace, the char keyword with comma, optional whitespace, a
non-empty decimal size, the closing angle bracket, whitespace, the
captured word-character name, optional whitespace, the equals sign,
optional whitespace, the opening brace, the captured non-brace body, the
closing brace, then the remaining input.  Nothing else matches. -/
theorem matchDeclAt_inv (s : List Char) (r : List Char × List Char × List Char)
    (h : matchDeclAt s = some r) :
    ∃ sp1 sp2 sp3 digits sp4 sp5 sp6,
      s = constLit ++ (sp1 ++ (arrayLit ++ (sp2 ++ (charLit ++ (sp3 ++ (digits ++
        ('>' :: (sp4 ++ (r.1 ++ (sp5 ++ ('=' :: (sp6 ++ ('{' ::
          (r.2.1 ++ ('}' :: r.2.2))))))))))))))) ∧
      sp1 ≠ [] ∧ (∀ c ∈ sp1, isSpace c = true) ∧
      sp2 ≠ [] ∧ (∀ c ∈ sp2, isSpace c = true) ∧
      (∀ c ∈ sp3, isSpace c = true) ∧
      digits ≠ [] ∧ (∀ c ∈ digits, isDigitChar c = true) ∧
      sp4 ≠ [] ∧ (∀ c ∈ sp4, isSpace c = true) ∧
      r.1 ≠ [] ∧ (∀ c ∈ r.1, isWordChar c = true) ∧
      (∀ c ∈ sp5, isSpace c = true) ∧
      (∀ c ∈ sp6, isSpace c = true) ∧
      r.2.1 ≠ [] ∧ (∀ c ∈ r.2.1, notBrace c = true) := by
  unfold matchDeclAt at h
  simp only [Option.bind_eq_some] at h
  obtain ⟨s1, h1, s2, h2, s3, h3, s4, h4, s5, h5, s6, h6, s7, h7, s8, h8, nw, h9,
    s9, h10, s10, h11, bw, h12, s11, h13, hret⟩ := h
  obtain ⟨w, s8b⟩ := nw
  obtain ⟨body, s11b⟩ := bw
  injection hret with hret
  subst hret
  have e1 : s = constLit ++ s1 := (lit_eq_some constLit s s1).mp h1
  obtain ⟨sp1, e2, hsp1ne, hsp1⟩ := dropSpaces1_inv s1 s2 h2
  have e3 : s2 = arrayLit ++ s3 := (lit_eq_some arrayLit s2 s3).mp h3
  obtain ⟨sp2, e4, hsp2ne, hsp2⟩ := dropSpaces1_inv s3 s4 h4
  have e5 : s4 = charLit ++ s5 := (lit_eq_some charLit s4 s5).mp h5
  obtain ⟨digits, e6, hdne, hdall⟩ := takeDigits1_inv (dropSpaces s5) s6 h6
  obtain ⟨sp3, e6b, hsp3⟩ := dropSpaces_inv s5
  rw [e6] at e6b
  have e7 : s6 = '>' :: s7 := (lit_eq_some ['>'] s6 s7).mp h7
  obtain ⟨sp4, e8, hsp4ne, hsp4⟩ := dropSpaces1_inv s7 s8 h8
  obtain ⟨e9, hwne, hwall⟩ := takeWord1_inv s8 w s8b h9
  have e10 : dropSpaces s8b = '=' :: s9 := (lit_eq_some ['='] (dropSpaces s8b) s9).mp h10
  obtain ⟨sp5, e10b, hsp5⟩ := dropSpaces_inv s8b
  rw [e10] at e10b
  have e11 : dropSpaces s9 = '{' :: s10 := (lit_eq_some ['{'] (dropSpaces s9) s10).mp h11
  obtain ⟨sp6, e11b, hsp6⟩ := dropSpaces_inv s9
  rw [e11] at e11b
  obtain ⟨e12, hbne, hball⟩ := takeBody1_inv s10 body s11b h12
  have e13 : s11b = '}' :: s11 := (lit_eq_some ['}'] s11b s11).mp h13
  rw [e13] at e12
  rw [e12] at e11b
  rw [e11b] at e10b
  rw [e10b] at e9
  rw [e9] at e8
  rw [e8] at e7
  rw [e7] at e6b
  rw [e6b] at e5
  rw [e5] at e4
  rw [e4] at e3
  rw [e3] at e2
  rw [e2] at e1
  exact ⟨sp1, sp2, sp3, digits, sp4, sp5, sp6, e1, hsp1ne, hsp1, hsp2ne, hsp2, hsp3,
    hdne, hdall, hsp4ne, hsp4, hwne, hwall, hsp5, hsp6, hbne, hball⟩

/-- A successful match consumes at least one character (in fact at least
the keyword const), so the remaining input is strictly shorter. -/
theorem matchDeclAt_length (s : List Char) (r : List Char × List Char × List Char)
    (h : matchDeclAt s = some r) : r.2.2.length < s.length := by
  obtain ⟨sp1, sp2, sp3, digits, sp4, sp5, sp6, heq, hrest⟩ := matchDeclAt_inv s r h
  rw [heq]
  simp only [List.length_append, List.length_cons]
  omega

/-- The length of the document is enough fuel: the bounded scan with any
fuel at least the input length equals the scan `scanDecls`, so `scanDecls`
is the unbounded position-by-position scan of the regex engine. -/
theorem scanDeclsAux_adequate :
    ∀ fuel s, s.length ≤ fuel → scanDeclsAux fuel s = scanDecls s := by
  intro fuel
  induction fuel using Nat.strong_induction_on with
  | _ fuel ih =>
    intro s hl
    cases fuel with
    | zero =>
      cases s with
      | nil => rfl
      | cons c rest => simp at hl
    | succ f =>
      cases s with
      | nil => rfl
      | cons c rest =>
        cases hm : matchDeclAt (c :: rest) with
        | some r =>
          have hL : scanDeclsAux (f + 1) (c :: rest) =
              (r.1, r.2.1) :: scanDeclsAux f r.2.2 := by
            rw [scanDeclsAux, hm]
          have hR := scanDecls_cons_of_match c rest r hm
          rw [hL, hR]
          have hlen := matchDeclAt_length (c :: rest) r hm
          rw [List.length_cons] at hl hlen
          rw [ih f (by omega) r.2.2 (by omega), ih rest.length (by omega) r.2.2 (by omega)]
        | none =>
          have hL : scanDeclsAux (f + 1) (c :: rest) = scanDeclsAux f rest := by
            rw [scanDeclsAux, hm]
          have hR : scanDecls (c :: rest) = scanDecls rest := by
            unfold scanDecls
            rw [List.length_cons, scanDeclsAux, hm]
          rw [hL, hR]
          rw [List.length_cons] at hl
          exact ih f (by omega) rest (by omega)

theorem suffix_extend (X l1 l2 : List Char) (h : l1 <:+ l2) : l1 <:+ X ++ l2 := by
  obtain ⟨t, ht⟩ := h
  exact ⟨X ++ t, by rw [List.append_assoc, ht]⟩

theorem suffix_extend_cons (c : Char) (l1 l2 : List Char) (h : l1 <:+ l2) :
    l1 <:+ c :: l2 :=
  suffix_extend [c] l1 l2 h

/-- The input remaining after a successful match is a suffix of the
matched input. -/
theorem matchDeclAt_suffix (s : List Char) (r : List Char × List Char × List Char)
    (h : matchDeclAt s = some r) : r.2.2 <:+ s := by
  obtain ⟨sp1, sp2, sp3, digits, sp4, sp5, sp6, heq, hrest⟩ := matchDeclAt_inv s r h
  rw [heq]
  apply suffix_extend
  apply suffix_extend
  apply suffix_extend
  apply suffix_extend
  apply suffix_extend
  apply suffix_extend
  apply suffix_extend
  apply suffix_extend_cons
  apply suffix_extend
  apply suffix_extend
  apply suffix_extend
  apply suffix_extend_cons
  apply suffix_extend
  apply suffix_extend_cons
  apply suffix_extend
  exact ⟨['}'], rfl⟩

/-- Every entry of the scan comes from a successful match attempt at some
suffix of the input. -/
theorem scanDeclsAux_mem_inv :
    ∀ (fuel : Nat) (s : List Char) (nb : List Char × List Char), nb ∈ scanDeclsAux fuel s →
      ∃ s2 r, s2 <:+ s ∧ matchDeclAt s2 = some r ∧ nb = (r.1, r.2.1) := by
  intro fuel
  induction fuel with
  | zero =>
    intro s nb h
    exact absurd h (by rw [scanDeclsAux]; simp)
  | succ f ih =>
    intro s nb h
    cases s with
    | nil => exact absurd h (by rw [scanDeclsAux]; simp)
    | cons c rest =>
      rw [scanDeclsAux] at h
      cases hm : matchDeclAt (c :: rest) with
      | some r =>
        rw [hm] at h
        rcases List.mem_cons.mp h with rfl | h2
        · exact ⟨c :: rest, r, List.suffix_refl _, hm, rfl⟩
        · obtain ⟨s2, r2, hsuf, hm2, hnb⟩ := ih r.2.2 nb h2
          exact ⟨s2, r2, hsuf.trans (matchDeclAt_suffix (c :: rest) r hm), hm2, hnb⟩
      | none =>
        rw [hm] at h
        obtain ⟨s2, r2, hsuf, hm2, hnb⟩ := ih rest nb h
        exact ⟨s2, r2, hsuf.trans ⟨[c], rfl⟩, hm2, hnb⟩

/-- Every entry of a dict store either carries the stored key or was
already present. -/
theorem mem_dictInsert_keys (n : List Char) (v : List Nat) (k : List Char) (w : List Nat)
    (d : List (List Char × List Nat)) (h : (n, v) ∈ dictInsert k w d) :
    n = k ∨ ∃ v2, (n, v2) ∈ d := by
  unfold dictInsert at h
  by_cases hany : d.any (fun e => e.1 == k) = true
  · rw [if_pos hany] at h
    rcases List.mem_map.mp h with ⟨e, he, heq⟩
    by_cases he2 : (e.1 == k) = true
    · rw [if_pos he2] at heq
      injection heq with heq1 heq2
      exact Or.inl heq1.symm
    · rw [if_neg he2] at heq
      subst heq
      exact Or.inr ⟨v, he⟩
  · rw [if_neg hany] at h
    rcases List.mem_append.mp h with h | h
    · exact Or.inr ⟨v, h⟩
    · rcases List.mem_singleton.mp h with heq
      injection heq with heq1 heq2
      exact Or.inl heq1

/-- Every key of the folded extraction dict is the name of some match
(or was in the starting dict). -/
theorem extract_mem_names :
    ∀ (ms : List (List Char × List Char)) (d : List (List Char × List Nat))
      (n : List Char) (v : List Nat),
      (n, v) ∈ ms.foldl (fun d2 m => dictInsert m.1 (findHexBytes m.2) d2) d →
        (∃ v2, (n, v2) ∈ d) ∨ ∃ b, (n, b) ∈ ms := by
  intro ms
  induction ms with
  | nil =>
    intro d n v h
    exact Or.inl ⟨v, h⟩
  | cons m ms ih =>
    intro d n v h
    rw [List.foldl_cons] at h
    rcases ih (dictInsert m.1 (findHexBytes m.2) d) n v h with ⟨v2, h2⟩ | ⟨b, hb⟩
    · rcases mem_dictInsert_keys n v2 m.1 (findHexBytes m.2) d h2 with heq | ⟨v3, h3⟩
      · subst heq
        exact Or.inr ⟨m.2, by rw [List.mem_cons]; exact Or.inl rfl⟩
      · exact Or.inl ⟨v3, h3⟩
    · exact Or.inr ⟨b, List.mem_cons_of_mem m hb⟩

/-- Claim C10: every entry of the extraction result arises from a
substring of the document that reads literally as the keyword const,
whitespace, the array-template text for element type unsigned char,
a non-empty decimal size, the closing angle bracket, whitespace, the
entry's name (non-empty word characters), an equals sign, and a
brace-delimited non-empty body, with only whitespace interleaved between
the fixed fragments.  Hence a declaration lacking the const qualifier,
using a different array template or element type, or a non-decimal size
cannot produce an entry. -/
theorem c10_only_literal_type_matches (content n : List Char) (v : List Nat)
    (h : (n, v) ∈ extract_arrays content) :
    ∃ pre sp1 sp2 sp3 digits sp4 sp5 sp6 body after,
      (n, body) ∈ scanDecls content ∧
      content = pre ++ (constLit ++ (sp1 ++ (arrayLit ++ (sp2 ++ (charLit ++ (sp3 ++
        (digits ++ ('>' :: (sp4 ++ (n ++ (sp5 ++ ('=' :: (sp6 ++ ('{' ::
          (body ++ ('}' :: after)))))))))))))))) ∧
      sp1 ≠ [] ∧ (∀ c ∈ sp1, isSpace c = true) ∧
      sp2 ≠ [] ∧ (∀ c ∈ sp2, isSpace c = true) ∧
      (∀ c ∈ sp3, isSpace c = true) ∧
      digits ≠ [] ∧ (∀ c ∈ digits, isDigitChar c = true) ∧
      sp4 ≠ [] ∧ (∀ c ∈ sp4, isSpace c = true) ∧
      n ≠ [] ∧ (∀ c ∈ n, isWordChar c = true) ∧
      (∀ c ∈ sp5, isSpace c = true) ∧
      (∀ c ∈ sp6, isSpace c = true) ∧
      body ≠ [] ∧ (∀ c ∈ body, notBrace c = true) := by
  have hmem : ∃ b, (n, b) ∈ scanDecls content := by
    rcases extract_mem_names (scanDecls content) [] n v h with ⟨v2, h2⟩ | hb
    · exact absurd h2 (by simp)
    · exact hb
  obtain ⟨b, hb⟩ := hmem
  obtain ⟨s2, r, hsuf, hm, hnb⟩ := scanDeclsAux_mem_inv content.length content (n, b) hb
  injection hnb with hn1 hb1
  subst hn1
  subst hb1
  obtain ⟨sp1, sp2, sp3, digits, sp4, sp5, sp6, heq, k1, k2, k3, k4, k5, k6, k7, k8,
    k9, k10, k11, k12, k13, k14, k15⟩ := matchDeclAt_inv s2 r hm
  obtain ⟨pre, hpre⟩ := hsuf
  exact ⟨pre, sp1, sp2, sp3, digits, sp4, sp5, sp6, r.2.1, r.2.2, hb,
    by rw [← hpre, heq], k1, k2, k3, k4, k5, k6, k7, k8, k9, k10, k11, k12, k13,
    k14, k15⟩

/-- Witness for C10: the entry extracted from a document holding one
literal declaration decomposes into exactly the literal type text, size,
name and body. -/
theorem c10_witness :
    ∃ pre sp1 sp2 sp3 digits sp4 sp5 sp6 body after,
      ("foo".toList, body) ∈
        scanDecls "const std::array<unsigned char, 2> foo = \x7b 0x01, 0x02 \x7d;".toList ∧
      "const std::array<unsigned char, 2> foo = \x7b 0x01, 0x02 \x7d;".toList =
        pre ++ (constLit ++ (sp1 ++ (arrayLit ++ (sp2 ++ (charLit ++ (sp3 ++
          (digits ++ ('>' :: (sp4 ++ ("foo".toList ++ (sp5 ++ ('=' :: (sp6 ++ ('{' ::
            (body ++ ('}' :: after)))))))))))))))) ∧
      sp1 ≠ [] ∧ (∀ c ∈ sp1, isSpace c = true) ∧
      sp2 ≠ [] ∧ (∀ c ∈ sp2, isSpace c = true) ∧
      (∀ c ∈ sp3, isSpace c = true) ∧
      digits ≠ [] ∧ (∀ c ∈ digits, isDigitChar c = true) ∧
      sp4 ≠ [] ∧ (∀ c ∈ sp4, isSpace c = true) ∧
      "foo".toList ≠ [] ∧ (∀ c ∈ "foo".toList, isWordChar c = true) ∧
      (∀ c ∈ sp5, isSpace c = true) ∧
      (∀ c ∈ sp6, isSpace c = true) ∧
      body ≠ [] ∧ (∀ c ∈ body, notBrace c = true) := by
  have hscan : scanDecls "const std::array<unsigned char, 2> foo = \x7b 0x01, 0x02 \x7d;".toList =
      [("foo".toList, " 0x01, 0x02 ".toList)] := by decide
  have hmem : ("foo".toList, findHexBytes (" 0x01, 0x02 ".toList)) ∈
      extract_arrays "const std::array<unsigned char, 2> foo = \x7b 0x01, 0x02 \x7d;".toList := by
    unfold extract_arrays
    rw [hscan]
    show _ ∈ dictInsert ("foo".toList) (findHexBytes (" 0x01, 0x02 ".toList)) []
    show _ ∈ [(("foo".toList : List Char), findHexBytes (" 0x01, 0x02 ".toList))]
    exact List.mem_singleton.mpr rfl
  exact c10_only_literal_type_matches
    ("const std::array<unsigned char, 2> foo = \x7b 0x01, 0x02 \x7d;".toList)
    ("foo".toList) (findHexBytes (" 0x01, 0x02 ".toList)) hmem
